import Mathlib

/-!
# Verification of the xtensor random-generator cache (`xrandom.hpp`)

Shallow embedding of `xt::detail::random_impl` and
`xt::detail::make_random_xgenerator` from `src/include/xtensor/xrandom.hpp`.

Modelling choices:

* The engine (`E`) and the distribution's mutable state (`D`) are abstract
  types.  A `DrawOps` bundle gives the three operations the code uses:
  `draw d e` models `m_dist(m_engine)` (one distribution sample: returns the
  value and the mutated distribution/engine states), `reset d` models
  `m_dist.reset()` (clearing buffered transform state; distribution
  parameters are fixed inside `draw`, so `D` is only the mutable buffer),
  and `discard e n` models `engine.discard(n)`.
* `std::stringstream` snapshotting of the engine (`(*m_engine_state) << m_engine`
  in the constructor, `(*m_engine_state) >> m_engine; m_engine_state->seekg(0)`
  on rewind) is modelled by storing the construction-time engine value in the
  field `m_engine_state`: the stream is written exactly once and `seekg(0)`
  keeps it re-readable, so it always deserializes to the initial engine.
* `std::size_t` values (shape extents, strides, index components) are
  modelled as `Nat`, with every `size_t` arithmetic operation of the source
  reduced mod 2^64 where it can wrap: the constructor's `data_size`
  accumulation (`stridesAux`), the factory's `n_discard` accumulate
  (`make_random_xgenerator`), and the products and sums inside
  `std::inner_product`.  The accumulator of `std::inner_product(first, last,
  m_strides.begin(), 0)` is a C++ `int`: each step computes
  `acc = acc + (*i1 * *i2)` where the product is `size_t` arithmetic
  (mod 2^64), the sum is converted to `size_t` (mod 2^64) and then narrowed
  back to the 32-bit signed `int` accumulator; `innerProductInt` models this
  exactly.  The result is then stored in the `long` local `advance_state`,
  modelled as `Int` (as is the `long m_advance_state` member, whose
  initializer is `-1`).
* Mutation of the `mutable` members inside the `const` accessors is modelled
  by explicit state passing: every access returns the value together with the
  updated `random_impl` record.
-/

namespace xt

/-- Operations of an engine/distribution pair, as used by `random_impl`:
`draw` is `m_dist(m_engine)` (value, new distribution state, new engine
state), `reset` is `m_dist.reset()`, `discard` is `engine.discard(n)`. -/
structure DrawOps (D E V : Type) where
  draw : D → E → V × D × E
  reset : D → D
  discard : E → Nat → E

/-- The state of a `detail::random_impl<D, S, V, E>` object: engine,
distribution state, strides, serialized initial engine state, and the
`long m_advance_state` cursor. -/
structure random_impl (D E V : Type) where
  m_engine : E
  m_dist : D
  m_strides : List Nat
  m_engine_state : E
  m_advance_state : Int

/-- The constructor's stride loop, processing the shape right to left:
`for(i = size; i != 0; --i) { m_strides[i-1] = data_size; data_size = m_strides[i-1] * shape[i-1]; }`.
Returns the filled strides together with the final `data_size`.  `data_size`
is a `std::size_t`, so the multiplication wraps mod 2^64. -/
def stridesAux : List Nat → List Nat × Nat
  | [] => ([], 1)
  | x :: xs =>
    let p := stridesAux xs
    (p.2 :: p.1, p.2 * x % 2 ^ 64)

/-- The strides computed by the `random_impl` constructor. -/
def computeStrides (shape : List Nat) : List Nat := (stridesAux shape).1

/-- The exact (unbounded) suffix products of a shape: the linear positions of
the spec's row-major rule, before `size_t` wrapping.  Used to relate the
stored strides to row-major ranks. -/
def suffixProds : List Nat → List Nat
  | [] => []
  | _ :: xs => xs.prod :: suffixProds xs

/-- The `random_impl` constructor: copies engine and distribution, computes
row-major strides, snapshots the engine state, leaves `m_advance_state = -1`. -/
def random_impl.construct {D E V : Type} (engine : E) (dist : D) (shape : List Nat) :
    random_impl D E V :=
  { m_engine := engine
    m_dist := dist
    m_strides := computeStrides shape
    m_engine_state := engine
    m_advance_state := -1 }

/-- Narrowing conversion of a `size_t` value to a 32-bit signed `int`
(two's complement wrap, the behavior of the targeted implementations). -/
def toInt32 (n : Nat) : Int :=
  let m : Nat := n % 2 ^ 32
  if m < 2 ^ 31 then (m : Int) else (m : Int) - 2 ^ 32

/-- One accumulation step of `std::inner_product(first, last, strides, 0)`:
`acc = acc + x * s` where `acc` is `int`, `x` and `s` are `size_t`; the
product and sum are `size_t` arithmetic (mod 2^64) and the assignment
narrows back to `int`. -/
def innerProductIntStep (acc : Int) (x s : Nat) : Int :=
  toInt32 (((acc % (2 ^ 64 : Int)).toNat + x * s % 2 ^ 64) % 2 ^ 64)

/-- `std::inner_product(first, last, m_strides.begin(), 0)` with an `int`
accumulator, as on line 80 of `xrandom.hpp`. -/
def innerProductInt (idx strides : List Nat) : Int :=
  (idx.zip strides).foldl (fun acc p => innerProductIntStep acc p.1 p.2) 0

/-- The mathematical dot product of an index with the strides (the linear
draw position of the spec, free of machine-integer narrowing). -/
def dotNat (idx strides : List Nat) : Nat :=
  (idx.zip strides).foldl (fun acc p => acc + p.1 * p.2) 0

/-- The discard loop
`for (; m_advance_state < advance_state; m_advance_state++) m_dist(m_engine);`
with its iteration count made explicit: performs `n` draws, dropping the
values. -/
def drawDiscard {D E V : Type} (ops : DrawOps D E V) : Nat → D × E → D × E
  | 0, s => s
  | n + 1, s =>
    let r := ops.draw s.1 s.2
    drawDiscard ops n (r.2.1, r.2.2)

/-- `random_impl::access_impl` after the inner product: `advance_state` is the
already-computed linear position.  `m_advance_state` is incremented; on a
match one value is drawn; otherwise, if the request is behind the cursor the
engine is restored from the snapshot, the distribution reset and the cursor
zeroed; then draws are discarded until the cursor reaches the request and one
final value is drawn and returned. -/
def access_state {D E V : Type} (ops : DrawOps D E V) (c : random_impl D E V)
    (advance_state : Int) : V × random_impl D E V :=
  let m1 := c.m_advance_state + 1
  if m1 = advance_state then
    let r := ops.draw c.m_dist c.m_engine
    (r.1, { c with m_dist := r.2.1, m_engine := r.2.2, m_advance_state := m1 })
  else
    let start : D × E × Int :=
      if advance_state < m1 then (ops.reset c.m_dist, c.m_engine_state, 0)
      else (c.m_dist, c.m_engine, m1)
    let de := drawDiscard ops (advance_state - start.2.2).toNat (start.1, start.2.1)
    let r := ops.draw de.1 de.2
    let adv : Int := start.2.2 + ((advance_state - start.2.2).toNat : Int)
    (r.1, { c with m_dist := r.2.1, m_engine := r.2.2, m_advance_state := adv })

/-- `random_impl::access_impl(first, last)`: computes
`advance_state = std::inner_product(first, last, m_strides.begin(), 0)` and
proceeds as in `access_state`. -/
def access_impl {D E V : Type} (ops : DrawOps D E V) (c : random_impl D E V)
    (idx : List Nat) : V × random_impl D E V :=
  access_state ops c (innerProductInt idx c.m_strides)

/-- `operator()(Args... args)`: materializes
`size_type idx[] = {static_cast<size_type>(args)...}` (a `size_t` cast of
each argument, i.e. reduction mod 2^64 of its integer value) and delegates to
`access_impl`. -/
def random_impl.op_call {D E V : Type} (ops : DrawOps D E V) (c : random_impl D E V)
    (args : List Int) : V × random_impl D E V :=
  access_impl ops c (args.map (fun a => (a % (2 ^ 64 : Int)).toNat))

/-- `operator[](const xindex& idx)`: delegates to
`access_impl(idx.begin(), idx.end())`. -/
def random_impl.op_index {D E V : Type} (ops : DrawOps D E V) (c : random_impl D E V)
    (idx : List Nat) : V × random_impl D E V :=
  access_impl ops c idx

/-- `element(It first, It last)`: delegates to `access_impl(first, last)`. -/
def random_impl.element {D E V : Type} (ops : DrawOps D E V) (c : random_impl D E V)
    (idx : List Nat) : V × random_impl D E V :=
  access_impl ops c idx

/-- `detail::make_random_xgenerator(dist, engine, shape)`: builds a
`random_impl` from copies of the engine and distribution (the binding to the
`xgenerator` wrapper is the identity on the functor), computes
`n_discard = std::accumulate(shape.begin(), shape.end(), size_t(1), multiplies)`
and advances the caller's engine by `n_discard` steps.  Returns the functor
and the caller's advanced engine. -/
def make_random_xgenerator {D E V : Type} (ops : DrawOps D E V) (dist : D) (engine : E)
    (shape : List Nat) : random_impl D E V × E :=
  let f : random_impl D E V := random_impl.construct engine dist shape
  let n_discard := shape.foldl (fun a b => a * b % 2 ^ 64) 1
  (f, ops.discard engine n_discard)

/-- The engine/distribution pair after `n` draws from the initial pair
`(d0, e0)`. -/
def nthDE {D E V : Type} (ops : DrawOps D E V) (d0 : D) (e0 : E) : Nat → D × E
  | 0 => (d0, e0)
  | n + 1 =>
    let p := nthDE ops d0 e0 n
    let r := ops.draw p.1 p.2
    (r.2.1, r.2.2)

/-- The value of the `n`-th draw (counting from 0) of the deterministic
sample sequence generated from `(d0, e0)`. -/
def sample {D E V : Type} (ops : DrawOps D E V) (d0 : D) (e0 : E) (n : Nat) : V :=
  (ops.draw (nthDE ops d0 e0 n).1 (nthDE ops d0 e0 n).2).1

/-- The distribution-reset contract: resetting the distribution state reached
after any number of draws yields the initial (buffer-free) state.  This holds
for the standard distributions: `reset()` clears the buffered entropy and a
freshly constructed distribution has none. -/
def ResetOk {D E V : Type} (ops : DrawOps D E V) (d0 : D) (e0 : E) : Prop :=
  ∀ n : Nat, ops.reset (nthDE ops d0 e0 n).1 = d0

/-- Reads a list of multi-dimensional indices in order through `access_impl`,
collecting the returned values and threading the cache state. -/
def runReads {D E V : Type} (ops : DrawOps D E V) (c : random_impl D E V) :
    List (List Nat) → List V × random_impl D E V
  | [] => ([], c)
  | i :: is =>
    let r := access_impl ops c i
    let rest := runReads ops r.2 is
    (r.1 :: rest.1, rest.2)

/-- The values produced by reading the given indices in order on cache `c`. -/
def values {D E V : Type} (ops : DrawOps D E V) (c : random_impl D E V)
    (l : List (List Nat)) : List V :=
  (runReads ops c l).1

/-- All valid multi-dimensional indices of a shape, in row-major order. -/
def rowMajorIndices : List Nat → List (List Nat)
  | [] => [[]]
  | n :: xs => (List.range n).flatMap (fun i => (rowMajorIndices xs).map (fun is => i :: is))

/-- Validity of a multi-dimensional index for a shape: same rank, every
component below the corresponding extent. -/
def ValidIdx (shape idx : List Nat) : Prop :=
  List.Forall₂ (fun i n => i < n) idx shape

/-- Validity is decidable (used to evaluate concrete instantiations). -/
def decValidIdx : ∀ (shape idx : List Nat), Decidable (ValidIdx shape idx)
  | [], [] => isTrue List.Forall₂.nil
  | [], _ :: _ => isFalse fun h => by cases h
  | _ :: _, [] => isFalse fun h => by cases h
  | n :: ns, i :: is =>
    match Nat.decLt i n, decValidIdx ns is with
    | isTrue h1, isTrue h2 => isTrue (List.Forall₂.cons h1 h2)
    | isFalse h1, _ => isFalse fun h => by cases h with | cons ha hb => exact h1 ha
    | _, isFalse h2 => isFalse fun h => by cases h with | cons ha hb => exact h2 hb

instance (shape idx : List Nat) : Decidable (ValidIdx shape idx) :=
  decValidIdx shape idx

/-- The reachable-state invariant of a cache built over the stream `(d0, e0)`:
the snapshot holds the initial engine, the cursor is at least the sentinel
`-1`, and the live engine/distribution pair is the initial pair advanced by
`cursor + 1` draws. -/
def Inv {D E V : Type} (ops : DrawOps D E V) (d0 : D) (e0 : E)
    (c : random_impl D E V) : Prop :=
  c.m_engine_state = e0 ∧ -1 ≤ c.m_advance_state ∧
    (c.m_dist, c.m_engine) = nthDE ops d0 e0 (c.m_advance_state + 1).toNat

/-- Instrumented `access_state`: additionally reports whether the call took
the rewind path and how many distribution draws (`m_dist(m_engine)` calls)
the call performed.  The counts follow the structure of `access_state`
directly: the fast path draws once; the slow paths run the discard loop
(`drawDiscard` with the fuel shown, one draw per iteration) and then draw
once more; on a rewind no draw happens before the engine restore.  The
projection onto the value/state pair coincides with `access_state`
(`access_state_traced_eq`). -/
def access_state_traced {D E V : Type} (ops : DrawOps D E V) (c : random_impl D E V)
    (advance_state : Int) : (V × random_impl D E V) × Bool × Nat :=
  let m1 := c.m_advance_state + 1
  if m1 = advance_state then
    (access_state ops c advance_state, false, 1)
  else if advance_state < m1 then
    (access_state ops c advance_state, true, (advance_state - 0).toNat + 1)
  else
    (access_state ops c advance_state, false, (advance_state - m1).toNat + 1)

/-- Runs a list of multi-index reads through the instrumented access,
maintaining a count of the draws consumed since the last rewind (or since
construction when no rewind has happened yet). -/
def runTraced {D E V : Type} (ops : DrawOps D E V) :
    random_impl D E V → Nat → List (List Nat) → random_impl D E V × Nat
  | c, sinceRewind, [] => (c, sinceRewind)
  | c, sinceRewind, i :: is =>
    let r := access_state_traced ops c (innerProductInt i c.m_strides)
    runTraced ops r.1.2 (if r.2.1 then r.2.2 else sinceRewind + r.2.2) is

/-- Instrumented discard loop: records, for each draw, the engine state
before and after the draw. -/
def drawDiscardTraced {D E V : Type} (ops : DrawOps D E V) :
    Nat → D × E → (D × E) × List (E × E)
  | 0, s => (s, [])
  | n + 1, s =>
    let r := ops.draw s.1 s.2
    let rest := drawDiscardTraced ops n (r.2.1, r.2.2)
    (rest.1, (s.2, r.2.2) :: rest.2)

/-- Instrumented `access_impl`: mirrors it step for step and additionally
records the engine states surrounding every draw the call performs (for an
engine whose state is its raw-step position, the half-open interval of each
recorded pair is the set of raw steps that draw consumed).  The projection
onto the value/state pair coincides with `access_impl`
(`access_impl_rawtraced_eq`). -/
def access_impl_rawtraced {D E V : Type} (ops : DrawOps D E V) (c : random_impl D E V)
    (idx : List Nat) : (V × random_impl D E V) × List (E × E) :=
  let advance_state := innerProductInt idx c.m_strides
  let m1 := c.m_advance_state + 1
  if m1 = advance_state then
    let r := ops.draw c.m_dist c.m_engine
    ((r.1, { c with m_dist := r.2.1, m_engine := r.2.2, m_advance_state := m1 }),
     [(c.m_engine, r.2.2)])
  else
    let start : D × E × Int :=
      if advance_state < m1 then (ops.reset c.m_dist, c.m_engine_state, 0)
      else (c.m_dist, c.m_engine, m1)
    let dt := drawDiscardTraced ops (advance_state - start.2.2).toNat (start.1, start.2.1)
    let r := ops.draw dt.1.1 dt.1.2
    let adv : Int := start.2.2 + ((advance_state - start.2.2).toNat : Int)
    ((r.1, { c with m_dist := r.2.1, m_engine := r.2.2, m_advance_state := adv }),
     dt.2 ++ [(dt.1.2, r.2.2)])

/-- The concatenated engine-interval trace of a sequence of reads. -/
def runRawTraced {D E V : Type} (ops : DrawOps D E V) :
    random_impl D E V → List (List Nat) → List (E × E)
  | _, [] => []
  | c, i :: is =>
    let r := access_impl_rawtraced ops c i
    r.2 ++ runRawTraced ops r.1.2 is

/-- Whether raw step `r` of a `Nat`-position engine lies in one of the
consumed intervals of a trace. -/
def rawHit (tr : List (Nat × Nat)) (r : Nat) : Bool :=
  tr.any (fun p => decide (p.1 ≤ r ∧ r < p.2))

/-- A concrete one-raw-step-per-draw stream over engine state `Nat` (the raw
position of a deterministic engine): drawing returns the position and
advances by one; the distribution keeps no mutable state. -/
def natOps : DrawOps Unit Nat Nat :=
  { draw := fun _ e => (e, (), e + 1), reset := fun d => d, discard := fun e n => e + n }

/-- A concrete stream whose distribution consumes two raw engine steps per
draw, as `std::uniform_real_distribution<double>` does over `std::mt19937`
(53 bits needed, 32 bits per raw step). -/
def natOps2 : DrawOps Unit Nat Nat :=
  { draw := fun _ e => (e, (), e + 2), reset := fun d => d, discard := fun e n => e + n }

section Workhorse

variable {D E V : Type} (ops : DrawOps D E V) (d0 : D) (e0 : E)

theorem nthDE_succ (n : Nat) :
    nthDE ops d0 e0 (n + 1) =
      ((ops.draw (nthDE ops d0 e0 n).1 (nthDE ops d0 e0 n).2).2.1,
       (ops.draw (nthDE ops d0 e0 n).1 (nthDE ops d0 e0 n).2).2.2) := rfl

theorem drawDiscard_nthDE (n k : Nat) :
    drawDiscard ops n (nthDE ops d0 e0 k) = nthDE ops d0 e0 (k + n) := by
  induction n generalizing k with
  | zero => rfl
  | succ n ih =>
    have hstep : drawDiscard ops (n + 1) (nthDE ops d0 e0 k)
        = drawDiscard ops n (nthDE ops d0 e0 (k + 1)) := by
      rw [nthDE_succ]
      rfl
    rw [hstep, ih (k + 1)]
    congr 1
    omega

theorem Inv.construct (shape : List Nat) :
    Inv ops d0 e0 (random_impl.construct e0 d0 shape) := by
  refine ⟨rfl, by norm_num [random_impl.construct], ?_⟩
  simp [random_impl.construct, nthDE]

/-- Full characterization of one access: from any reachable state, requesting
linear position `t` returns the `t.toNat`-th sample of the deterministic
sequence (negative positions clamp to 0), and leaves the cache at cursor
`t.toNat` with the stream advanced by `t.toNat + 1` draws. -/
theorem access_state_eq (h : ResetOk ops d0 e0) {c : random_impl D E V}
    (hc : Inv ops d0 e0 c) (t : Int) :
    access_state ops c t =
      (sample ops d0 e0 t.toNat,
       { m_engine := (nthDE ops d0 e0 (t.toNat + 1)).2
         m_dist := (nthDE ops d0 e0 (t.toNat + 1)).1
         m_strides := c.m_strides
         m_engine_state := e0
         m_advance_state := (t.toNat : Int) }) := by
  obtain ⟨hs, ha, hde⟩ := hc
  have hd : c.m_dist = (nthDE ops d0 e0 (c.m_advance_state + 1).toNat).1 :=
    congrArg Prod.fst hde
  have he : c.m_engine = (nthDE ops d0 e0 (c.m_advance_state + 1).toNat).2 :=
    congrArg Prod.snd hde
  by_cases h1 : c.m_advance_state + 1 = t
  · have ht : 0 ≤ t := by omega
    have htn : (c.m_advance_state + 1).toNat = t.toNat := by omega
    have htt : ((t.toNat : Nat) : Int) = t := by omega
    simp only [access_state, if_pos h1, hd, he, htn, h1, sample, nthDE_succ]
    simp [htt, hs]
  · by_cases h2 : t < c.m_advance_state + 1
    · have hds : drawDiscard ops (t - 0).toNat (ops.reset c.m_dist, c.m_engine_state)
          = nthDE ops d0 e0 t.toNat := by
        rw [hd, h ((c.m_advance_state + 1).toNat), hs]
        have h0 : ((d0 : D), (e0 : E)) = nthDE ops d0 e0 0 := rfl
        rw [h0, drawDiscard_nthDE]
        congr 1
        omega
      simp only [access_state, if_neg h1, if_pos h2]
      rw [hds, hs]
      simp only [sample, nthDE_succ]
      congr 2
      omega
    · have h3 : c.m_advance_state + 1 < t := by omega
      have hds : drawDiscard ops (t - (c.m_advance_state + 1)).toNat
          (c.m_dist, c.m_engine) = nthDE ops d0 e0 t.toNat := by
        rw [hd, he]
        have hpair : ((nthDE ops d0 e0 (c.m_advance_state + 1).toNat).1,
            (nthDE ops d0 e0 (c.m_advance_state + 1).toNat).2)
            = nthDE ops d0 e0 (c.m_advance_state + 1).toNat := rfl
        rw [hpair, drawDiscard_nthDE]
        congr 1
        omega
      simp only [access_state, if_neg h1, if_neg h2]
      rw [hds, hs]
      simp only [sample, nthDE_succ]
      congr 2
      omega

end Workhorse

section ListLemmas

theorem stridesAux_snd (l : List Nat) : (stridesAux l).2 = l.prod % 2 ^ 64 := by
  induction l with
  | nil => rfl
  | cons x xs ih =>
    show (stridesAux xs).2 * x % 2 ^ 64 = (x :: xs).prod % 2 ^ 64
    rw [ih, Nat.mod_mul_mod, List.prod_cons, Nat.mul_comm]

theorem computeStrides_cons (n : Nat) (xs : List Nat) :
    computeStrides (n :: xs) = (xs.prod % 2 ^ 64) :: computeStrides xs := by
  simp [computeStrides, stridesAux, stridesAux_snd]

theorem suffixProds_cons (n : Nat) (xs : List Nat) :
    suffixProds (n :: xs) = xs.prod :: suffixProds xs := rfl

theorem computeStrides_length (l : List Nat) : (computeStrides l).length = l.length := by
  induction l with
  | nil => rfl
  | cons x xs ih => simp [computeStrides_cons, ih]

theorem computeStrides_getElem (shape : List Nat) :
    ∀ (k : Nat), k < shape.length →
      (computeStrides shape)[k]? = some ((shape.drop (k + 1)).prod % 2 ^ 64) := by
  induction shape with
  | nil => intro k hk; exact absurd hk (by simp)
  | cons n xs ih =>
    intro k hk
    cases k with
    | zero => simp [computeStrides_cons]
    | succ k =>
      rw [computeStrides_cons]
      simpa using ih k (by simpa using hk)

theorem foldl_add_shift (l : List (Nat × Nat)) (a : Nat) :
    l.foldl (fun acc p => acc + p.1 * p.2) a
      = a + l.foldl (fun acc p => acc + p.1 * p.2) 0 := by
  induction l generalizing a with
  | nil => simp
  | cons q l ih =>
    rw [List.foldl_cons, List.foldl_cons, ih (a + q.1 * q.2), ih (0 + q.1 * q.2)]
    omega

theorem dotNat_cons (i p : Nat) (is ps : List Nat) :
    dotNat (i :: is) (p :: ps) = i * p + dotNat is ps := by
  simp only [dotNat, List.zip_cons_cons, List.foldl_cons]
  rw [foldl_add_shift]
  omega

theorem dotNat_lt_prod {shape idx : List Nat} (h : ValidIdx shape idx) :
    dotNat idx (computeStrides shape) < shape.prod := by
  induction h with
  | nil => simp [dotNat]
  | @cons i n is xs hip hrest ih =>
    rw [computeStrides_cons, dotNat_cons, List.prod_cons]
    have hmod : xs.prod % 2 ^ 64 ≤ xs.prod := Nat.mod_le _ _
    have h1 : i * (xs.prod % 2 ^ 64) + dotNat is (computeStrides xs)
        < (i + 1) * xs.prod := by
      have := ih
      nlinarith
    have h2 : (i + 1) * xs.prod ≤ n * xs.prod := Nat.mul_le_mul_right _ hip
    omega

theorem rowMajorIndices_length (shape : List Nat) :
    (rowMajorIndices shape).length = shape.prod := by
  induction shape with
  | nil => rfl
  | cons n xs ih =>
    rw [rowMajorIndices, List.length_flatMap, List.prod_cons]
    have hmap : (List.range n).map
          (List.length ∘ fun i => (rowMajorIndices xs).map (fun is => i :: is))
        = (List.range n).map (fun _ => xs.prod) := by
      refine List.map_congr_left (fun a _ => ?_)
      simp [ih]
    rw [hmap, List.map_const', List.sum_const_nat, List.length_range]

theorem range_flatMap_mul (n p : Nat) :
    (List.range n).flatMap (fun i => (List.range p).map (fun d => i * p + d))
      = List.range (n * p) := by
  induction n with
  | zero => simp
  | succ n ih =>
    rw [List.range_succ, List.flatMap_append, ih]
    have hblock : [n].flatMap (fun i => (List.range p).map (fun d => i * p + d))
        = (List.range p).map (fun d => n * p + d) := by simp
    rw [hblock, Nat.succ_mul, List.range_add]

theorem rowMajorIndices_map_dot (shape : List Nat) :
    (rowMajorIndices shape).map (fun i => dotNat i (suffixProds shape))
      = List.range shape.prod := by
  induction shape with
  | nil => rfl
  | cons n xs ih =>
    rw [rowMajorIndices, List.map_flatMap, List.prod_cons]
    have hblock : ∀ i, ((rowMajorIndices xs).map (fun is => i :: is)).map
          (fun l => dotNat l (suffixProds (n :: xs)))
        = (List.range xs.prod).map (fun d => i * xs.prod + d) := by
      intro i
      rw [List.map_map]
      have hfun : (fun l => dotNat l (suffixProds (n :: xs))) ∘ (fun is => i :: is)
          = fun is => i * xs.prod + dotNat is (suffixProds xs) := by
        funext is
        simp [suffixProds_cons, dotNat_cons]
      rw [hfun, show (fun is => i * xs.prod + dotNat is (suffixProds xs))
          = (fun d => i * xs.prod + d) ∘ (fun is => dotNat is (suffixProds xs)) from rfl,
        ← List.map_map, ih]
    calc (List.range n).flatMap (fun i => ((rowMajorIndices xs).map (fun is => i :: is)).map
            (fun l => dotNat l (suffixProds (n :: xs))))
        = (List.range n).flatMap
            (fun i => (List.range xs.prod).map (fun d => i * xs.prod + d)) := by
          refine List.flatMap_congr ?_
          intro i _
          exact hblock i
      _ = List.range (n * xs.prod) := range_flatMap_mul n xs.prod

/-- When the shape's element count neither vanishes nor reaches 2^64, the
stored (wrapped) strides coincide with the exact suffix products. -/
theorem computeStrides_eq_suffixProds :
    ∀ (shape : List Nat), 0 < shape.prod → shape.prod < 2 ^ 64 →
      computeStrides shape = suffixProds shape := by
  intro shape
  induction shape with
  | nil => intro _ _; rfl
  | cons n xs ih =>
    intro hpos hlt
    rw [List.prod_cons] at hpos hlt
    have hxs : 0 < xs.prod := by
      rcases Nat.eq_zero_or_pos xs.prod with h0 | h
      · rw [h0, Nat.mul_zero] at hpos; omega
      · exact h
    have hn : 0 < n := by
      rcases Nat.eq_zero_or_pos n with h0 | h
      · rw [h0, Nat.zero_mul] at hpos; omega
      · exact h
    have hxslt : xs.prod < 2 ^ 64 := by
      calc xs.prod ≤ n * xs.prod := Nat.le_mul_of_pos_left _ hn
        _ < 2 ^ 64 := hlt
    rw [computeStrides_cons, suffixProds_cons, Nat.mod_eq_of_lt hxslt, ih hxs hxslt]

/-- The wrapped and exact strides agree with every index mod 2^32 (indeed mod
2^64) in the dot product. -/
theorem dotNat_mod32 :
    ∀ (shape idx : List Nat),
      dotNat idx (computeStrides shape) % 2 ^ 32
        = dotNat idx (suffixProds shape) % 2 ^ 32 := by
  intro shape
  induction shape with
  | nil => intro idx; rfl
  | cons n xs ih =>
    intro idx
    cases idx with
    | nil => rfl
    | cons i is =>
      rw [computeStrides_cons, suffixProds_cons, dotNat_cons, dotNat_cons]
      have h1 := ih is
      have h2 : i * (xs.prod % 2 ^ 64) % 2 ^ 32 = i * xs.prod % 2 ^ 32 := by
        rw [Nat.mul_mod, Nat.mod_mod_of_dvd _ (by norm_num : (2 : Nat) ^ 32 ∣ 2 ^ 64),
          ← Nat.mul_mod]
      omega

/-- The `std::accumulate(shape, size_t(1), multiplies)` fold of the factory:
a `size_t` product accumulation, i.e. the exact product reduced mod 2^64. -/
theorem foldl_mul_mod :
    ∀ (l : List Nat) (a : Nat), a < 2 ^ 64 →
      l.foldl (fun x y => x * y % 2 ^ 64) a = a * l.prod % 2 ^ 64 := by
  intro l
  induction l with
  | nil =>
    intro a ha
    simp
    omega
  | cons b l ih =>
    intro a ha
    rw [List.foldl_cons, ih _ (Nat.mod_lt _ (by norm_num)), List.prod_cons,
      Nat.mod_mul_mod, Nat.mul_assoc]

end ListLemmas

section Overflow

theorem innerProductIntStep_eq (a x s : Nat) (h : a + x * s < 2 ^ 31) :
    innerProductIntStep (a : Int) x s = ((a + x * s : Nat) : Int) := by
  have e1 : ((((a : Int) % (2 ^ 64 : Int)).toNat + x * s % 2 ^ 64) % 2 ^ 64) = a + x * s := by
    omega
  simp only [innerProductIntStep, toInt32, e1]
  rw [Nat.mod_eq_of_lt (by omega : a + x * s < 2 ^ 32)]
  rw [if_pos (by omega : a + x * s < 2 ^ 31)]

theorem innerProductInt_foldl_eq :
    ∀ (l : List (Nat × Nat)) (a : Nat),
      a + l.foldl (fun acc p => acc + p.1 * p.2) 0 < 2 ^ 31 →
      l.foldl (fun acc p => innerProductIntStep acc p.1 p.2) (a : Int)
        = ((a + l.foldl (fun acc p => acc + p.1 * p.2) 0 : Nat) : Int) := by
  intro l
  induction l with
  | nil => intro a h; simp
  | cons q l ih =>
    intro a h
    have hshift : (q :: l).foldl (fun acc p => acc + p.1 * p.2) 0
        = q.1 * q.2 + l.foldl (fun acc p => acc + p.1 * p.2) 0 := by
      rw [List.foldl_cons, foldl_add_shift]
      omega
    rw [List.foldl_cons, innerProductIntStep_eq a q.1 q.2 (by omega),
      ih (a + q.1 * q.2) (by omega)]
    congr 1
    omega

theorem innerProductInt_eq_dotNat (idx strides : List Nat)
    (h : dotNat idx strides < 2 ^ 31) :
    innerProductInt idx strides = (dotNat idx strides : Int) := by
  have h0 : (0 : Nat) + (idx.zip strides).foldl (fun acc p => acc + p.1 * p.2) 0 < 2 ^ 31 := by
    simpa [dotNat] using h
  have := innerProductInt_foldl_eq (idx.zip strides) 0 h0
  simpa [innerProductInt, dotNat] using this

theorem toInt32_congr {a b : Nat} (h : a % 2 ^ 32 = b % 2 ^ 32) :
    toInt32 a = toInt32 b := by
  simp only [toInt32]
  rw [h]

theorem emod64_toNat_mod32 (A : Nat) :
    (toInt32 A % (2 ^ 64 : Int)).toNat % 2 ^ 32 = A % 2 ^ 32 := by
  by_cases h : A % 2 ^ 32 < 2 ^ 31
  · simp only [toInt32, if_pos h]
    omega
  · simp only [toInt32, if_neg h]
    omega

theorem innerProductIntStep_toInt32 (A x s : Nat) :
    innerProductIntStep (toInt32 A) x s = toInt32 (A + x * s) := by
  unfold innerProductIntStep
  apply toInt32_congr
  have h1 := emod64_toNat_mod32 A
  generalize x * s = q
  omega

/-- The whole `int`-accumulated inner product is the 32-bit narrowing of the
exact dot product: narrowing composes through the fold. -/
theorem innerProductInt_eq_toInt32_dotNat (idx strides : List Nat) :
    innerProductInt idx strides = toInt32 (dotNat idx strides) := by
  have haux : ∀ (l : List (Nat × Nat)) (A : Nat),
      l.foldl (fun acc p => innerProductIntStep acc p.1 p.2) (toInt32 A)
        = toInt32 (A + l.foldl (fun acc p => acc + p.1 * p.2) 0) := by
    intro l
    induction l with
    | nil => intro A; simp
    | cons q l ih =>
      intro A
      rw [List.foldl_cons, innerProductIntStep_toInt32, ih (A + q.1 * q.2),
        List.foldl_cons]
      congr 1
      rw [foldl_add_shift l (0 + q.1 * q.2)]
      omega
  have h0 := haux (idx.zip strides) 0
  rw [show toInt32 0 = (0 : Int) from rfl] at h0
  simpa [innerProductInt, dotNat] using h0

end Overflow

section Runs

variable {D E V : Type} (ops : DrawOps D E V) (d0 : D) (e0 : E)

theorem Inv_after (s : List Nat) (t : Int) :
    Inv ops d0 e0
      { m_engine := (nthDE ops d0 e0 (t.toNat + 1)).2
        m_dist := (nthDE ops d0 e0 (t.toNat + 1)).1
        m_strides := s
        m_engine_state := e0
        m_advance_state := (t.toNat : Int) } := by
  refine ⟨rfl, ?_, ?_⟩
  · show (-1 : Int) ≤ ((t.toNat : Nat) : Int)
    omega
  have h1 : (((t.toNat : Nat) : Int) + 1).toNat = t.toNat + 1 := by omega
  show ((nthDE ops d0 e0 (t.toNat + 1)).1, (nthDE ops d0 e0 (t.toNat + 1)).2)
      = nthDE ops d0 e0 ((((t.toNat : Nat) : Int)) + 1).toNat
  rw [h1]

/-- One multi-index access from a reachable state: the value is the sample at
the (clamped) computed linear position, the invariant is preserved and the
strides are unchanged. -/
theorem access_impl_spec (h : ResetOk ops d0 e0) {c : random_impl D E V}
    (hc : Inv ops d0 e0 c) (i : List Nat) :
    (access_impl ops c i).1
        = sample ops d0 e0 (innerProductInt i c.m_strides).toNat
      ∧ Inv ops d0 e0 (access_impl ops c i).2
      ∧ (access_impl ops c i).2.m_strides = c.m_strides := by
  have ha := access_state_eq ops d0 e0 h hc (innerProductInt i c.m_strides)
  rw [access_impl, ha]
  exact ⟨rfl, Inv_after ops d0 e0 c.m_strides (innerProductInt i c.m_strides), rfl⟩

/-- A whole run of reads from a reachable state: the values are the samples at
the computed linear positions of the indices, pointwise. -/
theorem runReads_spec (h : ResetOk ops d0 e0) :
    ∀ (l : List (List Nat)) (c : random_impl D E V), Inv ops d0 e0 c →
      (runReads ops c l).1
          = l.map (fun i => sample ops d0 e0 (innerProductInt i c.m_strides).toNat)
        ∧ Inv ops d0 e0 (runReads ops c l).2
        ∧ (runReads ops c l).2.m_strides = c.m_strides := by
  intro l
  induction l with
  | nil => intro c hc; exact ⟨rfl, hc, rfl⟩
  | cons i l ih =>
    intro c hc
    have ha := access_state_eq ops d0 e0 h hc (innerProductInt i c.m_strides)
    obtain ⟨h1, h2, h3⟩ := ih _ (Inv_after ops d0 e0 c.m_strides (innerProductInt i c.m_strides))
    simp only [runReads, access_impl, ha]
    refine ⟨?_, h2, h3⟩
    rw [List.map_cons, h1]

/-- The values of a run from a freshly constructed cache. -/
theorem values_construct (h : ResetOk ops d0 e0) (shape : List Nat) (l : List (List Nat)) :
    values ops (random_impl.construct e0 d0 shape) l
      = l.map (fun i => sample ops d0 e0 (innerProductInt i (computeStrides shape)).toNat) :=
  (runReads_spec ops d0 e0 h l _ (Inv.construct ops d0 e0 shape)).1

end Runs

theorem natOps_resetOk (e : Nat) : ResetOk natOps () e := fun _ => rfl

theorem natOps_nthDE (e : Nat) : ∀ n, nthDE natOps () e n = ((), e + n) := by
  intro n
  induction n with
  | zero => rfl
  | succ n ih => rw [nthDE_succ, ih]; rfl

theorem natOps_sample (e n : Nat) : sample natOps () e n = e + n := by
  rw [sample, natOps_nthDE]
  rfl

/-- Claim C8 as stated fails once a suffix product reaches 2^64: the
constructor's `size_t` `data_size` accumulation wraps, so at shape
[2, 2^33, 2^33] the stored `strides[0]` is 2^66 mod 2^64 = 0, not 2^66. -/
theorem C8_counterexample :
    (random_impl.construct 0 () [2, 2 ^ 33, 2 ^ 33]
        : random_impl Unit Nat Nat).m_strides[0]?
      ≠ some ((([2, 2 ^ 33, 2 ^ 33] : List Nat).drop 1).prod) := by
  decide

/-- Claim C8 (amended): after construction, the strides sequence has the same
length as the shape, the last dimension's stride is 1, and `strides[k]`
equals the product of the shape extents after position `k` reduced mod 2^64
(the `size_t` stride accumulation wraps). -/
theorem C8_strides {D E V : Type} (engine : E) (dist : D) (shape : List Nat) :
    (random_impl.construct engine dist shape : random_impl D E V).m_strides.length
        = shape.length
    ∧ (shape ≠ [] →
        (random_impl.construct engine dist shape : random_impl D E V).m_strides[shape.length - 1]?
          = some 1)
    ∧ (∀ k, k < shape.length →
        (random_impl.construct engine dist shape : random_impl D E V).m_strides[k]?
          = some ((shape.drop (k + 1)).prod % 2 ^ 64)) := by
  refine ⟨computeStrides_length shape, ?_, ?_⟩
  · intro hne
    have hlen : 0 < shape.length := List.length_pos.mpr hne
    have h := computeStrides_getElem shape (shape.length - 1) (by omega)
    have hdrop : shape.length - 1 + 1 = shape.length := by omega
    rw [hdrop, List.drop_length] at h
    simpa using h
  · intro k hk
    simpa using computeStrides_getElem shape k hk

/-- Claim C8 (amended) witness at shape [2, 3, 4]. -/
theorem C8_strides_witness :
    ((random_impl.construct 0 () [2, 3, 4] : random_impl Unit Nat Nat).m_strides[0]?
        = some ((([2, 3, 4] : List Nat).drop 1).prod % 2 ^ 64))
    ∧ ((random_impl.construct 0 () [2, 3, 4] : random_impl Unit Nat Nat).m_strides[2]?
        = some 1) :=
  ⟨(C8_strides 0 () [2, 3, 4]).2.2 0 (by decide),
   (C8_strides 0 () [2, 3, 4]).2.1 (by decide)⟩

/-- Claim C9: the linear position is computed by `std::inner_product` with the
`int` literal 0 as accumulator, hence in 32-bit signed arithmetic: whenever
the mathematical dot product (and with it every partial sum, the terms being
non-negative) fits below 2^31 the computed value equals it, while a dot
product of 2^31 wraps to -2^31 even though the position is then stored in a
`long` (the `Int`-valued `advance_state`). -/
theorem C9_inner_product_int :
    (∀ idx strides : List Nat, dotNat idx strides < 2 ^ 31 →
        innerProductInt idx strides = (dotNat idx strides : Int))
    ∧ innerProductInt [1] [2 ^ 31] = -(2 ^ 31)
    ∧ (dotNat [1] [2 ^ 31] : Int) = 2 ^ 31 :=
  ⟨innerProductInt_eq_dotNat, by decide, by decide⟩

/-- Claim C9 witness: a small in-range dot product. -/
theorem C9_inner_product_int_witness :
    innerProductInt [1, 2] [3, 1] = (dotNat [1, 2] [3, 1] : Int) :=
  C9_inner_product_int.1 [1, 2] [3, 1] (by decide)

/-- Claim C6 as stated fails once the element count reaches 2^64: the
factory's `size_t` accumulate wraps, so at shape [2^32, 2^32] the engine is
discarded by 2^64 mod 2^64 = 0 raw steps, not by product(shape) = 2^64. -/
theorem C6_counterexample :
    (make_random_xgenerator natOps () 0 [2 ^ 32, 2 ^ 32]).2
      ≠ 0 + ([2 ^ 32, 2 ^ 32] : List Nat).prod := by
  decide

/-- Claim C6 (amended): the factory returns the freshly constructed cache
bound to the shape (the binding to the lazy wrapper is external) and advances
the caller's engine by exactly `product(shape) mod 2^64` raw steps — the
`size_t` accumulate wraps, so the advancement is exactly `product(shape)`
whenever that fits in 64 bits — with the count computed from the shape alone.
The engine is modelled by its raw-step position (`Nat`) with `discard` adding
the step count. -/
theorem C6_factory_advances {D V : Type} (ops : DrawOps D Nat V)
    (hdiscard : ∀ e n, ops.discard e n = e + n) (dist : D) (engine : Nat)
    (shape : List Nat) :
    (make_random_xgenerator ops dist engine shape).2 = engine + shape.prod % 2 ^ 64
    ∧ (make_random_xgenerator ops dist engine shape).1
        = random_impl.construct engine dist shape := by
  constructor
  · show ops.discard engine (shape.foldl (fun a b => a * b % 2 ^ 64) 1)
        = engine + shape.prod % 2 ^ 64
    rw [hdiscard, foldl_mul_mod shape 1 (by norm_num), Nat.one_mul]
  · rfl

/-- Claim C6 (amended) witness at shape [2, 3]. -/
theorem C6_factory_advances_witness :
    (make_random_xgenerator natOps () 5 [2, 3]).2
      = 5 + ([2, 3] : List Nat).prod % 2 ^ 64 :=
  (C6_factory_advances natOps (fun _ _ => rfl) () 5 [2, 3]).1

/-- Claim C10: the three public accessors (variadic `operator()`, `operator[]`
on an `xindex`, and `element(first, last)`) all delegate to `access_impl`:
presented with the same component values they return the same value and
perform the same state transition.  `operator()` casts its arguments through
`static_cast<size_type>`, the identity on values below 2^64. -/
theorem C10_accessors_delegate {D E V : Type} (ops : DrawOps D E V)
    (c : random_impl D E V) (idx : List Nat) (hbound : ∀ a ∈ idx, a < 2 ^ 64) :
    random_impl.op_call ops c (idx.map Int.ofNat) = access_impl ops c idx
    ∧ random_impl.op_index ops c idx = access_impl ops c idx
    ∧ random_impl.element ops c idx = access_impl ops c idx := by
  refine ⟨?_, rfl, rfl⟩
  have hidx : ∀ (l : List Nat), (∀ a ∈ l, a < 2 ^ 64) →
      (l.map Int.ofNat).map (fun x => (x % (2 ^ 64 : Int)).toNat) = l := by
    intro l
    induction l with
    | nil => intro _; rfl
    | cons a l ih =>
      intro h
      simp only [List.map_cons]
      rw [ih (fun b hb => h b (by simp [hb]))]
      have ha : a < 2 ^ 64 := h a (by simp)
      have hround : ((Int.ofNat a) % (2 ^ 64 : Int)).toNat = a := by
        rw [Int.ofNat_eq_coe]
        omega
      rw [hround]
  unfold random_impl.op_call
  rw [hidx idx hbound]

/-- Claim C10 witness on a fresh cache of shape [2, 3] at index [1, 2]. -/
theorem C10_accessors_delegate_witness :
    random_impl.op_call natOps (random_impl.construct 0 () [2, 3])
        (([1, 2] : List Nat).map Int.ofNat)
      = access_impl natOps (random_impl.construct 0 () [2, 3]) [1, 2] :=
  (C10_accessors_delegate natOps (random_impl.construct 0 () [2, 3]) [1, 2]
    (by decide)).1

/-- Claim C1: for a fixed stream and shape, reading the indices in any
permutation of the row-major enumeration yields, per index, the same value as
reading them in row-major order on an identically constructed cache: matching
entries of the two runs (positions holding the same index) carry equal
values. -/
theorem C1_order_independence {D E V : Type} (ops : DrawOps D E V) (d0 : D) (e0 : E)
    (h : ResetOk ops d0 e0) (shape : List Nat) (perm : List (List Nat))
    (hperm : perm.Perm (rowMajorIndices shape)) (k j : Nat)
    (hk : k < perm.length) (hj : j < (rowMajorIndices shape).length)
    (heq : perm[k]? = (rowMajorIndices shape)[j]?) :
    (values ops (random_impl.construct e0 d0 shape) perm)[k]?
      = (values ops (random_impl.construct e0 d0 shape) (rowMajorIndices shape))[j]? := by
  rw [values_construct ops d0 e0 h shape perm,
    values_construct ops d0 e0 h shape (rowMajorIndices shape),
    List.getElem?_map, List.getElem?_map, heq]

/-- Claim C1 witness: shape [2], reading in the order [[1], [0]]; the value
read for index [1] (position 0 of the permuted run) equals the value read for
index [1] (position 1) in the row-major run. -/
theorem C1_order_independence_witness :
    (values natOps (random_impl.construct 0 () [2]) [[1], [0]])[0]?
      = (values natOps (random_impl.construct 0 () [2]) (rowMajorIndices [2]))[1]? :=
  C1_order_independence natOps () 0 (natOps_resetOk 0) [2] [[1], [0]]
    (by decide) 0 1 (by decide) (by decide) (by decide)

/-- Claim C2: on one cache instance (here: with an arbitrary prior read
history), reading index `i`, then any interleaved valid reads, then `i`
again, returns the same value both times. -/
theorem C2_idempotent_reread {D E V : Type} (ops : DrawOps D E V) (d0 : D) (e0 : E)
    (h : ResetOk ops d0 e0) (shape : List Nat) (pre others : List (List Nat))
    (i : List Nat) (hvi : ValidIdx shape i)
    (hothers : ∀ jdx ∈ others, ValidIdx shape jdx) :
    (access_impl ops
        (runReads ops
          (access_impl ops (runReads ops (random_impl.construct e0 d0 shape) pre).2 i).2
          others).2 i).1
      = (access_impl ops (runReads ops (random_impl.construct e0 d0 shape) pre).2 i).1 := by
  obtain ⟨_, hIpre, hSpre⟩ :=
    runReads_spec ops d0 e0 h pre _ (Inv.construct ops d0 e0 shape)
  obtain ⟨hv1, hI1, hS1⟩ := access_impl_spec ops d0 e0 h hIpre i
  obtain ⟨_, hI2, hS2⟩ := runReads_spec ops d0 e0 h others _ hI1
  obtain ⟨hv2, _, _⟩ := access_impl_spec ops d0 e0 h hI2 i
  rw [hv1, hv2, hS2, hS1]

/-- Claim C2 witness: shape [2, 3], reading [1, 2], then [0, 1] and [1, 0],
then [1, 2] again. -/
theorem C2_idempotent_reread_witness :
    (access_impl natOps
        (runReads natOps
          (access_impl natOps
            (runReads natOps (random_impl.construct 0 () [2, 3]) []).2 [1, 2]).2
          [[0, 1], [1, 0]]).2 [1, 2]).1
      = (access_impl natOps
          (runReads natOps (random_impl.construct 0 () [2, 3]) []).2 [1, 2]).1 :=
  C2_idempotent_reread natOps () 0 (natOps_resetOk 0) [2, 3] [] [[0, 1], [1, 0]]
    [1, 2] (by decide) (by decide)

/-- Claim C4: after reading an index of larger linear position, reading an
index of smaller linear position `j` returns exactly the value that position
`j` carries in a from-scratch row-major materialization of an identically
constructed cache. -/
theorem C4_backward_jump {D E V : Type} (ops : DrawOps D E V) (d0 : D) (e0 : E)
    (h : ResetOk ops d0 e0) (shape idx1 idx2 : List Nat)
    (h1 : ValidIdx shape idx1) (h2 : ValidIdx shape idx2)
    (hlt : dotNat idx2 (computeStrides shape) < dotNat idx1 (computeStrides shape)) :
    (values ops (random_impl.construct e0 d0 shape)
        (rowMajorIndices shape))[dotNat idx2 (computeStrides shape)]?
      = some ((access_impl ops
          (access_impl ops (random_impl.construct e0 d0 shape) idx1).2 idx2).1) := by
  obtain ⟨_, hI1, hS1⟩ :=
    access_impl_spec ops d0 e0 h (Inv.construct ops d0 e0 shape) idx1
  obtain ⟨hv2, _, _⟩ := access_impl_spec ops d0 e0 h hI1 idx2
  have hjlt : dotNat idx2 (computeStrides shape) < (rowMajorIndices shape).length := by
    rw [rowMajorIndices_length]
    exact dotNat_lt_prod h2
  obtain ⟨v, hv⟩ : ∃ v, (rowMajorIndices shape)[dotNat idx2 (computeStrides shape)]?
      = some v :=
    ⟨_, List.getElem?_eq_getElem hjlt⟩
  have hgetd := congrArg (fun l => l[dotNat idx2 (computeStrides shape)]?)
    (rowMajorIndices_map_dot shape)
  simp only [List.getElem?_map, hv, Option.map_some'] at hgetd
  rw [List.getElem?_range (by rw [← rowMajorIndices_length]; exact hjlt)] at hgetd
  have hrank : dotNat v (suffixProds shape) = dotNat idx2 (computeStrides shape) :=
    Option.some.inj hgetd
  rw [values_construct ops d0 e0 h shape (rowMajorIndices shape), List.getElem?_map,
    hv, Option.map_some', hv2, hS1]
  have hip : innerProductInt v (computeStrides shape)
      = innerProductInt idx2 (computeStrides shape) := by
    rw [innerProductInt_eq_toInt32_dotNat, innerProductInt_eq_toInt32_dotNat]
    apply toInt32_congr
    rw [dotNat_mod32 shape v, hrank, dotNat_mod32 shape idx2]
  rw [hip]
  rfl

/-- Claim C4 witness: shape [2, 3], first read [1, 2] (position 5), then
[0, 1] (position 1). -/
theorem C4_backward_jump_witness :
    (values natOps (random_impl.construct 0 () [2, 3])
        (rowMajorIndices [2, 3]))[dotNat [0, 1] (computeStrides [2, 3])]?
      = some ((access_impl natOps
          (access_impl natOps (random_impl.construct 0 () [2, 3]) [1, 2]).2 [0, 1]).1) :=
  C4_backward_jump natOps () 0 (natOps_resetOk 0) [2, 3] [1, 2] [0, 1]
    (by decide) (by decide) (by decide)

theorem flatMap_singleton_map {A B : Type} (f : A → B) (l : List A) :
    l.flatMap (fun x => [f x]) = l.map f := by
  induction l with
  | nil => rfl
  | cons a l ih => simp [List.flatMap_cons, ih]

theorem rowMajorIndices_singleton (n : Nat) :
    rowMajorIndices [n] = (List.range n).map (fun i => [i]) := by
  rw [rowMajorIndices]
  have hone : ∀ i : Nat, (rowMajorIndices []).map (fun is => i :: is) = [[i]] := fun _ => rfl
  calc (List.range n).flatMap (fun i => (rowMajorIndices []).map (fun is => i :: is))
      = (List.range n).flatMap (fun i => [[i]]) := by
        refine List.flatMap_congr (fun i _ => hone i)
    _ = (List.range n).map (fun i => [i]) := flatMap_singleton_map (fun i => [i]) (List.range n)

/-- Claim C3 as stated fails for shapes whose element count exceeds the
`int` range of the inner-product accumulator: at shape [2^31 + 1], the
row-major read of index [2^31] computes a wrapped (negative) linear position
and replays sample 0 instead of sample 2^31. -/
theorem C3_counterexample :
    values natOps (random_impl.construct 0 () [2 ^ 31 + 1])
        (rowMajorIndices [2 ^ 31 + 1])
      ≠ (List.range (([2 ^ 31 + 1] : List Nat).prod)).map (sample natOps () 0) := by
  intro hEq
  have h1 := congrArg (fun l => l[2 ^ 31]?) hEq
  simp only [values_construct natOps () 0 (natOps_resetOk 0), List.getElem?_map] at h1
  rw [rowMajorIndices_singleton, List.getElem?_map,
    List.getElem?_range (by omega : 2 ^ 31 < 2 ^ 31 + 1),
    List.getElem?_range (by simp : (2 ^ 31 : Nat) < ([2 ^ 31 + 1] : List Nat).prod)] at h1
  have hstr : computeStrides [2 ^ 31 + 1] = [1] := rfl
  rw [hstr] at h1
  simp only [Option.map_some'] at h1
  have hwrap : innerProductInt [2 ^ 31] [1] = -(2 ^ 31) := by decide
  rw [hwrap] at h1
  have h0 : ((-(2 ^ 31) : Int)).toNat = 0 := by decide
  rw [h0, natOps_sample, natOps_sample] at h1
  have hfin : (0 : Nat) + 0 = 0 + 2 ^ 31 := Option.some.inj h1
  omega

/-- Claim C3 (amended): provided the element count fits the `int` accumulator
(`product(shape) ≤ 2^31`), reading every index in row-major order reproduces,
value for value, the first `product(shape)` samples of the stream. -/
theorem C3_sequential_traversal {D E V : Type} (ops : DrawOps D E V) (d0 : D) (e0 : E)
    (h : ResetOk ops d0 e0) (shape : List Nat) (hsize : shape.prod ≤ 2 ^ 31) :
    values ops (random_impl.construct e0 d0 shape) (rowMajorIndices shape)
      = (List.range shape.prod).map (sample ops d0 e0) := by
  by_cases hzero : shape.prod = 0
  · have henum : rowMajorIndices shape = [] :=
      List.length_eq_zero.mp (by rw [rowMajorIndices_length, hzero])
    rw [henum, hzero]
    rfl
  · have hpos : 0 < shape.prod := Nat.pos_of_ne_zero hzero
    have hws : computeStrides shape = suffixProds shape :=
      computeStrides_eq_suffixProds shape hpos (by omega)
    rw [values_construct ops d0 e0 h shape (rowMajorIndices shape), hws,
      ← rowMajorIndices_map_dot shape, List.map_map]
    refine List.map_congr_left (fun i hi => ?_)
    have hrank : dotNat i (suffixProds shape) < shape.prod := by
      have hmem : dotNat i (suffixProds shape)
          ∈ (rowMajorIndices shape).map (fun x => dotNat x (suffixProds shape)) :=
        List.mem_map_of_mem _ hi
      rw [rowMajorIndices_map_dot] at hmem
      exact List.mem_range.mp hmem
    show sample ops d0 e0 (innerProductInt i (suffixProds shape)).toNat
        = sample ops d0 e0 (dotNat i (suffixProds shape))
    rw [innerProductInt_eq_dotNat _ _ (by omega)]
    simp

/-- Claim C3 (amended) witness at shape [2, 2]. -/
theorem C3_sequential_traversal_witness :
    values natOps (random_impl.construct 0 () [2, 2]) (rowMajorIndices [2, 2])
      = (List.range (([2, 2] : List Nat).prod)).map (sample natOps () 0) :=
  C3_sequential_traversal natOps () 0 (natOps_resetOk 0) [2, 2] (by decide)

theorem access_state_traced_eq {D E V : Type} (ops : DrawOps D E V)
    (c : random_impl D E V) (t : Int) :
    (access_state_traced ops c t).1 = access_state ops c t := by
  by_cases h1 : c.m_advance_state + 1 = t
  · simp [access_state_traced, h1]
  · by_cases h2 : t < c.m_advance_state + 1
    · simp [access_state_traced, h1, h2]
    · simp [access_state_traced, h1, h2]

theorem access_state_advance {D E V : Type} (ops : DrawOps D E V)
    (c : random_impl D E V) (t : Int) :
    (access_state ops c t).2.m_advance_state
      = if c.m_advance_state + 1 = t then c.m_advance_state + 1
        else if t < c.m_advance_state + 1 then ((t.toNat : Nat) : Int)
        else t := by
  by_cases h1 : c.m_advance_state + 1 = t
  · simp [access_state, h1]
  · by_cases h2 : t < c.m_advance_state + 1
    · simp only [access_state, if_neg h1, if_pos h2]
      simp [h1, h2]
    · simp only [access_state, if_neg h1, if_neg h2]
      simp [h1, h2]
      omega

/-- The draws-since-rewind bookkeeping of `runTraced` always reads
`cursor + 1`. -/
theorem runTraced_count {D E V : Type} (ops : DrawOps D E V) :
    ∀ (reads : List (List Nat)) (c : random_impl D E V) (n : Nat),
      (c.m_advance_state + 1).toNat = n → -1 ≤ c.m_advance_state →
      ((runTraced ops c n reads).1.m_advance_state + 1).toNat
          = (runTraced ops c n reads).2
      ∧ -1 ≤ (runTraced ops c n reads).1.m_advance_state := by
  intro reads
  induction reads with
  | nil =>
    intro c n h1 h2
    exact ⟨by simpa [runTraced] using h1, by simpa [runTraced] using h2⟩
  | cons i is ih =>
    intro c n h1 h2
    have hadv := access_state_advance ops c (innerProductInt i c.m_strides)
    by_cases hb1 : c.m_advance_state + 1 = innerProductInt i c.m_strides
    · have hrun : runTraced ops c n (i :: is)
          = runTraced ops (access_state ops c (innerProductInt i c.m_strides)).2
              (n + 1) is := by
        simp [runTraced, access_state_traced, hb1]
      rw [if_pos hb1] at hadv
      rw [hrun]
      exact ih _ (n + 1) (by omega) (by omega)
    · by_cases hb2 : innerProductInt i c.m_strides < c.m_advance_state + 1
      · have hrun : runTraced ops c n (i :: is)
            = runTraced ops (access_state ops c (innerProductInt i c.m_strides)).2
                ((innerProductInt i c.m_strides - 0).toNat + 1) is := by
          simp [runTraced, access_state_traced, hb1, hb2]
        rw [if_neg hb1, if_pos hb2] at hadv
        rw [hrun]
        exact ih _ _ (by omega) (by omega)
      · have hrun : runTraced ops c n (i :: is)
            = runTraced ops (access_state ops c (innerProductInt i c.m_strides)).2
                (n + ((innerProductInt i c.m_strides
                    - (c.m_advance_state + 1)).toNat + 1)) is := by
          simp [runTraced, access_state_traced, hb1, hb2]
        rw [if_neg hb1, if_neg hb2] at hadv
        rw [hrun]
        exact ih _ _ (by omega) (by omega)

/-- Claim C7 counterexample: after one sequential read (index [0] of shape
[2]) the cursor is 0 while one draw has been consumed since the last rewind
(here: since construction, no rewind having occurred), so the cursor does not
equal the number of draws consumed. -/
theorem C7_counterexample :
    (runTraced natOps (random_impl.construct 0 () [2]) 0 [[0]]).1.m_advance_state
      ≠ (((runTraced natOps (random_impl.construct 0 () [2]) 0 [[0]]).2 : Nat) : Int) := by
  decide

/-- Claim C7 (amended): between value-at calls the cursor equals the number
of draws consumed from the engine/distribution since the last rewind MINUS
ONE — equivalently, `cursor + 1` equals the draw count, with the sentinel
`-1` before the first draw — and the cursor strictly increases on every call
that does not take the rewind path. -/
theorem C7_cursor_accounting {D E V : Type} (ops : DrawOps D E V) (d0 : D) (e0 : E)
    (shape : List Nat) (reads : List (List Nat)) :
    (((runTraced ops (random_impl.construct e0 d0 shape) 0 reads).1.m_advance_state
          + 1).toNat
        = (runTraced ops (random_impl.construct e0 d0 shape) 0 reads).2
      ∧ -1 ≤ (runTraced ops (random_impl.construct e0 d0 shape) 0 reads).1.m_advance_state)
    ∧ ∀ (c : random_impl D E V) (t : Int),
        (access_state_traced ops c t).2.1 = false →
        c.m_advance_state < (access_state_traced ops c t).1.2.m_advance_state := by
  constructor
  · exact runTraced_count ops reads (random_impl.construct e0 d0 shape) 0
      (by simp [random_impl.construct]) (by simp [random_impl.construct])
  · intro c t hflag
    rw [access_state_traced_eq, access_state_advance]
    by_cases hb1 : c.m_advance_state + 1 = t
    · rw [if_pos hb1]
      omega
    · by_cases hb2 : t < c.m_advance_state + 1
      · exfalso
        have hcontra : (access_state_traced ops c t).2.1 = true := by
          simp [access_state_traced, hb1, hb2]
        rw [hflag] at hcontra
        cases hcontra
      · rw [if_neg hb1, if_neg hb2]
        omega

/-- Claim C7 (amended) witness: two sequential reads on shape [2]; the final
cursor is 1 and the draw count since construction is 2, and a concrete
non-rewinding call strictly increases the cursor. -/
theorem C7_cursor_accounting_witness :
    ((((runTraced natOps (random_impl.construct 0 () [2]) 0 [[0], [1]]).1.m_advance_state
          + 1).toNat
        = (runTraced natOps (random_impl.construct 0 () [2]) 0 [[0], [1]]).2)
      ∧ -1 ≤ (runTraced natOps (random_impl.construct 0 () [2]) 0 [[0], [1]]).1.m_advance_state)
    ∧ ((access_state_traced natOps (random_impl.construct 0 () [2]) 0).2.1 = false →
        (random_impl.construct 0 () [2]
            : random_impl Unit Nat Nat).m_advance_state
          < (access_state_traced natOps (random_impl.construct 0 () [2]) 0).1.2.m_advance_state) :=
  ⟨⟨(C7_cursor_accounting natOps () 0 [2] [[0], [1]]).1.1,
    (C7_cursor_accounting natOps () 0 [2] [[0], [1]]).1.2⟩,
   fun hf => (C7_cursor_accounting natOps () 0 [2] [[0], [1]]).2
     (random_impl.construct 0 () [2]) 0 hf⟩

theorem drawDiscardTraced_fst {D E V : Type} (ops : DrawOps D E V) :
    ∀ (n : Nat) (s : D × E), (drawDiscardTraced ops n s).1 = drawDiscard ops n s := by
  intro n
  induction n with
  | zero => intro s; rfl
  | succ n ih => intro s; simp [drawDiscardTraced, drawDiscard, ih]

theorem access_impl_rawtraced_eq {D E V : Type} (ops : DrawOps D E V)
    (c : random_impl D E V) (idx : List Nat) :
    (access_impl_rawtraced ops c idx).1 = access_impl ops c idx := by
  by_cases h1 : c.m_advance_state + 1 = innerProductInt idx c.m_strides
  · simp [access_impl_rawtraced, access_impl, access_state, h1]
  · by_cases h2 : innerProductInt idx c.m_strides < c.m_advance_state + 1
    · simp [access_impl_rawtraced, access_impl, access_state, h1, h2, drawDiscardTraced_fst]
    · simp [access_impl_rawtraced, access_impl, access_state, h1, h2, drawDiscardTraced_fst]

theorem drawDiscard_engine {D V : Type} (ops : DrawOps D Nat V)
    (hdraw : ∀ d e, (ops.draw d e).2.2 = e + 1) :
    ∀ (n : Nat) (s : D × Nat), (drawDiscard ops n s).2 = s.2 + n := by
  intro n
  induction n with
  | zero => intro s; rfl
  | succ n ih =>
    intro s
    have hstep : drawDiscard ops (n + 1) s
        = drawDiscard ops n ((ops.draw s.1 s.2).2.1, (ops.draw s.1 s.2).2.2) := rfl
    rw [hstep, ih, hdraw]
    omega

theorem nthDE_engine_nat {D V : Type} (ops : DrawOps D Nat V)
    (hdraw : ∀ d e, (ops.draw d e).2.2 = e + 1) (d0 : D) (e0 : Nat) :
    ∀ n, (nthDE ops d0 e0 n).2 = e0 + n := by
  intro n
  induction n with
  | zero => rfl
  | succ n ih =>
    rw [nthDE_succ, hdraw, ih]
    omega

theorem drawDiscardTraced_bounds {D V : Type} (ops : DrawOps D Nat V)
    (hdraw : ∀ d e, (ops.draw d e).2.2 = e + 1) :
    ∀ (n : Nat) (s : D × Nat) (p : Nat × Nat), p ∈ (drawDiscardTraced ops n s).2 →
      s.2 ≤ p.1 ∧ p.2 ≤ s.2 + n := by
  intro n
  induction n with
  | zero => intro s p hp; simp [drawDiscardTraced] at hp
  | succ n ih =>
    intro s p hp
    simp only [drawDiscardTraced] at hp
    rcases List.mem_cons.mp hp with heq | hmem
    · subst heq
      refine ⟨le_refl _, ?_⟩
      show (ops.draw s.1 s.2).2.2 ≤ s.2 + (n + 1)
      rw [hdraw]
      omega
    · have hb := ih ((ops.draw s.1 s.2).2.1, (ops.draw s.1 s.2).2.2) p hmem
      have hb2 : (ops.draw s.1 s.2).2.2 = s.2 + 1 := hdraw _ _
      simp only [hb2] at hb
      omega

theorem toInt32_lt (n : Nat) : toInt32 n < 2 ^ 31 := by
  have hm : n % 2 ^ 32 < 2 ^ 32 := Nat.mod_lt _ (by norm_num)
  by_cases h : n % 2 ^ 32 < 2 ^ 31
  · simp only [toInt32, if_pos h]
    omega
  · simp only [toInt32, if_neg h]
    omega

theorem innerProductInt_lt (idx strides : List Nat) :
    innerProductInt idx strides < 2 ^ 31 := by
  have haux : ∀ (l : List (Nat × Nat)) (a : Int), a < 2 ^ 31 →
      l.foldl (fun acc p => innerProductIntStep acc p.1 p.2) a < 2 ^ 31 := by
    intro l
    induction l with
    | nil => intro a h; simpa using h
    | cons q l ih =>
      intro a h
      rw [List.foldl_cons]
      exact ih _ (toInt32_lt _)
  exact haux _ 0 (by norm_num)

theorem innerProductInt_toNat_lt_prod {shape idx : List Nat} (h : ValidIdx shape idx) :
    (innerProductInt idx (computeStrides shape)).toNat < shape.prod := by
  by_cases hb : dotNat idx (computeStrides shape) < 2 ^ 31
  · rw [innerProductInt_eq_dotNat _ _ hb]
    have := dotNat_lt_prod h
    omega
  · have hp := dotNat_lt_prod h
    have hl := innerProductInt_lt idx (computeStrides shape)
    omega

theorem access_rawtraced_bounds {D V : Type} (ops : DrawOps D Nat V)
    (hdraw : ∀ d e, (ops.draw d e).2.2 = e + 1) (d0 : D) (e0 : Nat)
    {c : random_impl D Nat V} (hc : Inv ops d0 e0 c) (idx : List Nat) :
    ∀ p ∈ (access_impl_rawtraced ops c idx).2,
      e0 ≤ p.1 ∧ p.2 ≤ e0 + (innerProductInt idx c.m_strides).toNat + 1 := by
  obtain ⟨hs, ha, hde⟩ := hc
  have he : c.m_engine = e0 + (c.m_advance_state + 1).toNat := by
    have h2 : c.m_engine = (nthDE ops d0 e0 (c.m_advance_state + 1).toNat).2 :=
      congrArg Prod.snd hde
    rw [h2, nthDE_engine_nat ops hdraw]
  intro p hp
  by_cases h1 : c.m_advance_state + 1 = innerProductInt idx c.m_strides
  · simp only [access_impl_rawtraced, if_pos h1, List.mem_singleton] at hp
    subst hp
    constructor
    · show e0 ≤ c.m_engine
      omega
    · show (ops.draw c.m_dist c.m_engine).2.2
          ≤ e0 + (innerProductInt idx c.m_strides).toNat + 1
      rw [hdraw, he]
      omega
  · by_cases h2 : innerProductInt idx c.m_strides < c.m_advance_state + 1
    · simp only [access_impl_rawtraced, if_neg h1, if_pos h2, List.mem_append,
        List.mem_singleton] at hp
      rcases hp with hp | hp
      · have hb := drawDiscardTraced_bounds ops hdraw _
          (ops.reset c.m_dist, c.m_engine_state) p hp
        rw [hs] at hb
        omega
      · subst hp
        have hfst := drawDiscardTraced_fst ops
          ((innerProductInt idx c.m_strides - 0).toNat) (ops.reset c.m_dist, c.m_engine_state)
        have heng : (drawDiscardTraced ops ((innerProductInt idx c.m_strides - 0).toNat)
            (ops.reset c.m_dist, c.m_engine_state)).1.2
            = e0 + (innerProductInt idx c.m_strides - 0).toNat := by
          rw [hfst, drawDiscard_engine ops hdraw]
          rw [hs]
        constructor
        · show (drawDiscardTraced ops _ _).1.2 ≥ e0
          rw [heng]
          omega
        · show (ops.draw (drawDiscardTraced ops _ _).1.1 (drawDiscardTraced ops _ _).1.2).2.2
            ≤ e0 + (innerProductInt idx c.m_strides).toNat + 1
          rw [hdraw, heng]
          omega
    · simp only [access_impl_rawtraced, if_neg h1, if_neg h2, List.mem_append,
        List.mem_singleton] at hp
      rcases hp with hp | hp
      · have hb := drawDiscardTraced_bounds ops hdraw _
          (c.m_dist, c.m_engine) p hp
        simp only [he] at hb
        omega
      · subst hp
        have hfst := drawDiscardTraced_fst ops
          ((innerProductInt idx c.m_strides - (c.m_advance_state + 1)).toNat)
          (c.m_dist, c.m_engine)
        have heng : (drawDiscardTraced ops
            ((innerProductInt idx c.m_strides - (c.m_advance_state + 1)).toNat)
            (c.m_dist, c.m_engine)).1.2
            = e0 + (c.m_advance_state + 1).toNat
              + (innerProductInt idx c.m_strides - (c.m_advance_state + 1)).toNat := by
          rw [hfst, drawDiscard_engine ops hdraw]
          simp only [he]
        constructor
        · show (drawDiscardTraced ops _ _).1.2 ≥ e0
          rw [heng]
          omega
        · show (ops.draw (drawDiscardTraced ops _ _).1.1 (drawDiscardTraced ops _ _).1.2).2.2
            ≤ e0 + (innerProductInt idx c.m_strides).toNat + 1
          rw [hdraw, heng]
          omega


theorem runRawTraced_bounds {D V : Type} (ops : DrawOps D Nat V)
    (hdraw : ∀ d e, (ops.draw d e).2.2 = e + 1) (d0 : D) (e0 : Nat)
    (h : ResetOk ops d0 e0) (shape : List Nat) :
    ∀ (reads : List (List Nat)) (c : random_impl D Nat V), Inv ops d0 e0 c →
      c.m_strides = computeStrides shape → (∀ i ∈ reads, ValidIdx shape i) →
      ∀ p ∈ runRawTraced ops c reads, e0 ≤ p.1 ∧ p.2 ≤ e0 + shape.prod := by
  intro reads
  induction reads with
  | nil => intro c _ _ _ p hp; simp [runRawTraced] at hp
  | cons i is ih =>
    intro c hc hstr hv p hp
    simp only [runRawTraced, List.mem_append] at hp
    rcases hp with hp1 | hp2
    · have hb := access_rawtraced_bounds ops hdraw d0 e0 hc i p hp1
      have ht : (innerProductInt i c.m_strides).toNat < shape.prod := by
        rw [hstr]
        exact innerProductInt_toNat_lt_prod (hv i (by simp))
      omega
    · have herase := access_impl_rawtraced_eq ops c i
      obtain ⟨_, hI, hS⟩ := access_impl_spec ops d0 e0 h hc i
      refine ih _ ?_ ?_ (fun j hj => hv j (by simp [hj])) p hp2
      · rw [show (access_impl_rawtraced ops c i).1.2 = (access_impl ops c i).2 from
          congrArg Prod.snd herase]
        exact hI
      · rw [show (access_impl_rawtraced ops c i).1.2 = (access_impl ops c i).2 from
          congrArg Prod.snd herase, hS, hstr]

/-- Claim C5 (amended): provided every distribution draw consumes exactly one
raw engine step and the first shape's element count fits the factory's
`size_t` discard count (`product(shape1) < 2^64`), two virtual arrays
constructed in sequence from the shared stream (the second after the
factory's advancement) never draw from overlapping raw positions, whatever
valid elements of each are subsequently read. -/
theorem C5_disjoint_streams {D V : Type} (ops : DrawOps D Nat V)
    (hdraw : ∀ d e, (ops.draw d e).2.2 = e + 1)
    (hdiscard : ∀ e n, ops.discard e n = e + n)
    (d0 : D) (e0 : Nat) (hr : ∀ e : Nat, ResetOk ops d0 e)
    (shape1 shape2 : List Nat) (hN1 : shape1.prod < 2 ^ 64)
    (reads1 reads2 : List (List Nat))
    (hv1 : ∀ i ∈ reads1, ValidIdx shape1 i) (hv2 : ∀ i ∈ reads2, ValidIdx shape2 i)
    (r : Nat)
    (hhit1 : rawHit (runRawTraced ops (make_random_xgenerator ops d0 e0 shape1).1 reads1)
        r = true)
    (hhit2 : rawHit (runRawTraced ops
        (make_random_xgenerator ops d0 (make_random_xgenerator ops d0 e0 shape1).2
          shape2).1 reads2) r = true) :
    False := by
  obtain ⟨p1, hp1, hc1⟩ := List.any_eq_true.mp hhit1
  obtain ⟨p2, hp2, hc2⟩ := List.any_eq_true.mp hhit2
  have hq1 : p1.1 ≤ r ∧ r < p1.2 := of_decide_eq_true hc1
  have hq2 : p2.1 ≤ r ∧ r < p2.2 := of_decide_eq_true hc2
  have he1 : (make_random_xgenerator ops d0 e0 shape1).2 = e0 + shape1.prod := by
    show ops.discard e0 (shape1.foldl (fun a b => a * b % 2 ^ 64) 1) = e0 + shape1.prod
    rw [hdiscard, foldl_mul_mod shape1 1 (by norm_num), Nat.one_mul,
      Nat.mod_eq_of_lt hN1]
  have hb1 := runRawTraced_bounds ops hdraw d0 e0 (hr e0) shape1 reads1
    (make_random_xgenerator ops d0 e0 shape1).1 (Inv.construct ops d0 e0 shape1)
    rfl hv1 p1 hp1
  have hb2 := runRawTraced_bounds ops hdraw d0
    ((make_random_xgenerator ops d0 e0 shape1).2) (hr _) shape2 reads2
    (make_random_xgenerator ops d0 (make_random_xgenerator ops d0 e0 shape1).2 shape2).1
    (Inv.construct ops d0 _ shape2) rfl hv2 p2 hp2
  rw [he1] at hb2
  omega

/-- Claim C5 (amended) witness: shapes [2] and [3] over a one-step stream,
raw step 1 is consumed only by the first array. -/
theorem C5_disjoint_streams_witness :
    ¬ (rawHit (runRawTraced natOps (make_random_xgenerator natOps () 0 [2]).1
          [[0], [1]]) 1 = true
      ∧ rawHit (runRawTraced natOps
          (make_random_xgenerator natOps ()
            (make_random_xgenerator natOps () 0 [2]).2 [3]).1 [[2]]) 1 = true) :=
  fun hand => C5_disjoint_streams natOps (fun _ _ => rfl) (fun _ _ => rfl) () 0
    natOps_resetOk [2] [3] (by decide) [[0], [1]] [[2]] (by decide) (by decide) 1
    hand.1 hand.2

/-- Claim C5 as stated fails when a draw consumes more than one raw engine
step (e.g. `uniform_real_distribution<double>` over `mt19937` consumes two):
with shapes [1] and [1] over such a stream, raw position 1 is consumed by
both arrays. -/
theorem C5_counterexample :
    rawHit (runRawTraced natOps2 (make_random_xgenerator natOps2 () 0 [1]).1 [[0]])
        1 = true
    ∧ rawHit (runRawTraced natOps2
        (make_random_xgenerator natOps2 ()
          (make_random_xgenerator natOps2 () 0 [1]).2 [1]).1 [[0]]) 1 = true := by
  decide

end xt
